import Mathlib

/-!
Verification of `src/git.rs` (crate `tmuxcc`): the locator `get_git_branch`
and the pure parser `parse_git_head`.

Embedding conventions:
* Rust `&str` / `String` values are modelled as `List Char` (a Rust string is
  a sequence of Unicode scalar values).
* `str::len()` is a *byte* count in Rust; it is modelled by `utf8Len`, the sum
  of the UTF-8 encoded sizes of the characters.
* The byte slice `&contents[..7]` is modelled as `List.take 7`: in the only
  branch where the source slices, every character is an ASCII hex digit, so
  each character occupies exactly one byte and the byte slice `[..7]` coincides
  with the first seven characters (this is proved, see the safety theorem).
* The filesystem is a record of the three read-only queries the source makes
  (`is_dir`, `is_file`, `read_to_string`).  Every call the source performs is
  also recorded in an operation trace so that absence of writes and absence of
  any access can be stated.
* `std::path::Path` is modelled as an absolute-flag plus the list of normal
  components, stored innermost-first so that `parent` is `List.tail`.
  `Path::new` on a string splits on `/` and drops empty components (the
  `CurDir` normalization of `std::path` is not needed by any claim and is not
  modelled).
-/

namespace Git

/-- Unicode `White_Space` code points, the set trimmed by Rust `str::trim`
(via `char::is_whitespace`). -/
def isRustWhitespace (c : Char) : Bool :=
  let n := c.toNat
  (0x09 ≤ n && n ≤ 0x0D) || n == 0x20 || n == 0x85 || n == 0xA0 || n == 0x1680 ||
  (0x2000 ≤ n && n ≤ 0x200A) || n == 0x2028 || n == 0x2029 || n == 0x202F ||
  n == 0x205F || n == 0x3000

/-- Rust `str::trim`: remove leading and trailing whitespace characters. -/
def rustTrim (s : List Char) : List Char :=
  ((s.dropWhile isRustWhitespace).reverse.dropWhile isRustWhitespace).reverse

/-- Rust `str::strip_prefix`: `some` of the remainder when `pre` is a prefix
of `s`, `none` otherwise. -/
def stripPrefix : List Char → List Char → Option (List Char)
  | [], s => some s
  | _ :: _, [] => none
  | p :: ps, c :: cs => if p = c then stripPrefix ps cs else none

/-- Rust `char::is_ascii_hexdigit`: `0`-`9`, `a`-`f`, `A`-`F`. -/
def isAsciiHexdigit (c : Char) : Bool :=
  (0x30 ≤ c.toNat && c.toNat ≤ 0x39) ||
  (0x61 ≤ c.toNat && c.toNat ≤ 0x66) ||
  (0x41 ≤ c.toNat && c.toNat ≤ 0x46)

/-- Number of bytes of the UTF-8 encoding of one character. -/
def charUtf8Size (c : Char) : Nat :=
  if c.toNat ≤ 0x7F then 1
  else if c.toNat ≤ 0x7FF then 2
  else if c.toNat ≤ 0xFFFF then 3
  else 4

/-- Rust `str::len`: the number of bytes of the UTF-8 encoding. -/
def utf8Len (s : List Char) : Nat :=
  (s.map charUtf8Size).sum

/-- `parse_git_head` from `src/git.rs`: parse the contents of a `.git/HEAD`
file to extract the branch name.  The detached-hash branch guards on the byte
length (`contents.len() >= 7`) and, under the all-ASCII-hex guard, the byte
slice `&contents[..7]` is the first seven characters. -/
def parse_git_head (contents : List Char) : Option (List Char) :=
  let contents := rustTrim contents
  match stripPrefix "ref: ".data contents with
  | some ref_path =>
    match stripPrefix "refs/heads/".data ref_path with
    | some branch => some branch
    | none =>
      match stripPrefix "refs/remotes/".data ref_path with
      | some remote_branch => some remote_branch
      | none => some ref_path
  | none =>
    if 7 ≤ utf8Len contents ∧ contents.all isAsciiHexdigit then
      some (contents.take 7 ++ "...".data)
    else none

/-- `std::path::Path`, modelled as the absolute-flag plus the list of normal
components.  Components are stored *innermost-first* (`/a/b` is
`⟨true, [b, a]⟩`) so that `Path::parent` is `List.tail`. -/
structure Path where
  absolute : Bool
  components : List (List Char)
deriving DecidableEq

/-- `Path::join` with a single normal component (the source only ever joins
the relative one-component names `.git` and `HEAD`). -/
def Path.join (p : Path) (c : List Char) : Path :=
  ⟨p.absolute, c :: p.components⟩

/-- `Path::parent`: drop the innermost component; `none` at a root or at the
empty path. -/
def Path.parent (p : Path) : Option Path :=
  match p.components with
  | [] => none
  | _ :: rest => some ⟨p.absolute, rest⟩

/-- Split a string at `/` separators (the pieces, outermost first). -/
def splitOnSlash : List Char → List (List Char)
  | [] => [[]]
  | c :: rest =>
    if c = '/' then [] :: splitOnSlash rest
    else
      match splitOnSlash rest with
      | [] => [[c]]
      | h :: t => (c :: h) :: t

/-- `Path::new` on a string: absolute iff it starts with `/`; the normal
components are the nonempty pieces between `/` separators, stored
innermost-first. -/
def strToPath (s : List Char) : Path :=
  ⟨s.head? = some '/', ((splitOnSlash s).filter (fun c => ¬c.isEmpty)).reverse⟩

/-- The filesystem state: the three read-only queries the source performs.
`readToString` returns `none` when the file is missing, unreadable, or not
valid UTF-8 (all collapse to `Err` in `fs::read_to_string`). -/
structure FS where
  isDir : Path → Bool
  isFile : Path → Bool
  readToString : Path → Option (List Char)

/-- A filesystem operation.  The source only ever performs the three read
operations; `writeQ` exists so that "performs only reads" is expressible as a
property of the recorded trace. -/
inductive FsOp where
  | isDirQ : Path → FsOp
  | isFileQ : Path → FsOp
  | readQ : Path → FsOp
  | writeQ : Path → List Char → FsOp
deriving DecidableEq

/-- Whether an operation is a pure read. -/
def FsOp.isRead : FsOp → Bool
  | .isDirQ _ => true
  | .isFileQ _ => true
  | .readQ _ => true
  | .writeQ _ _ => false

/-- Effect of one operation on the filesystem: reads leave it unchanged,
a write updates the file contents. -/
def FsOp.apply (fs : FS) : FsOp → FS
  | .isDirQ _ => fs
  | .isFileQ _ => fs
  | .readQ _ => fs
  | .writeQ p c =>
    { fs with
      isFile := fun q => if q = p then true else fs.isFile q
      readToString := fun q => if q = p then some c else fs.readToString q }

/-- Replay a trace of operations against a filesystem state. -/
def applyOps (fs : FS) (ops : List FsOp) : FS :=
  ops.foldl FsOp.apply fs

/-- One iteration of the `while` loop of `get_git_branch`, at directory `dir`,
together with the trace of filesystem operations it performs.  `some r` means
the Rust loop executes `return r`; `none` means it falls through to
`current = dir.parent()`.  Note that when `.git` is a directory whose `HEAD`
cannot be read, or a file whose contents are unreadable or lack the
`gitdir: ` prefix or whose target `HEAD` cannot be read, the iteration does
NOT return: it falls through to the parent. -/
def checkGitT (fs : FS) (dir : Path) : Option (Option (List Char)) × List FsOp :=
  let git_dir := dir.join ".git".data
  if fs.isDir git_dir then
    let head_path := git_dir.join "HEAD".data
    match fs.readToString head_path with
    | some contents => (some (parse_git_head contents), [.isDirQ git_dir, .readQ head_path])
    | none => (none, [.isDirQ git_dir, .readQ head_path])
  else if fs.isFile git_dir then
    match fs.readToString git_dir with
    | some contents =>
      match stripPrefix "gitdir: ".data contents with
      | some git_path =>
        let head_path := (strToPath (rustTrim git_path)).join "HEAD".data
        match fs.readToString head_path with
        | some head_contents =>
          (some (parse_git_head head_contents),
           [.isDirQ git_dir, .isFileQ git_dir, .readQ git_dir, .readQ head_path])
        | none =>
          (none, [.isDirQ git_dir, .isFileQ git_dir, .readQ git_dir, .readQ head_path])
      | none => (none, [.isDirQ git_dir, .isFileQ git_dir, .readQ git_dir])
    | none => (none, [.isDirQ git_dir, .isFileQ git_dir, .readQ git_dir])
  else
    (none, [.isDirQ git_dir, .isFileQ git_dir])

/-- The `while let Some(dir) = current` loop of `get_git_branch`, walking from
`⟨abs, comps⟩` up through the parents (`List.tail` on innermost-first
components), with the accumulated operation trace. -/
def goT (fs : FS) (abs : Bool) (comps : List (List Char)) :
    Option (List Char) × List FsOp :=
  match checkGitT fs ⟨abs, comps⟩ with
  | (some r, t) => (r, t)
  | (none, t) =>
    match comps with
    | [] => (none, t)
    | _ :: rest =>
      let p := goT fs abs rest
      (p.1, t ++ p.2)

/-- `get_git_branch` from `src/git.rs`, instrumented with the trace of
filesystem operations it performs. -/
def get_git_branchT (fs : FS) (path : List Char) :
    Option (List Char) × List FsOp :=
  if path.isEmpty then (none, [])
  else
    let p := strToPath path
    goT fs p.absolute p.components

/-- `get_git_branch` from `src/git.rs`: get the git branch name for a path. -/
def get_git_branch (fs : FS) (path : List Char) : Option (List Char) :=
  (get_git_branchT fs path).1

/-- A filesystem in which `/a/.git` is a directory whose `HEAD` is unreadable
while `/.git` is a directory with a readable `HEAD` naming branch `x`. -/
def fs1 : FS where
  isDir := fun p =>
    decide (p = ⟨true, [".git".data, "a".data]⟩ ∨ p = ⟨true, [".git".data]⟩)
  isFile := fun _ => false
  readToString := fun p =>
    if p = ⟨true, ["HEAD".data, ".git".data]⟩ then some "ref: refs/heads/x".data
    else none

/-- A filesystem with a linked-worktree marker: `/w/.git` is a regular file
containing `gitdir: /g`, and `/g/HEAD` names branch `wt`. -/
def fs2 : FS where
  isDir := fun _ => false
  isFile := fun p => decide (p = ⟨true, [".git".data, "w".data]⟩)
  readToString := fun p =>
    if p = ⟨true, [".git".data, "w".data]⟩ then some "gitdir: /g\n".data
    else if p = ⟨true, ["HEAD".data, "g".data]⟩ then some "ref: refs/heads/wt".data
    else none

/-- A filesystem with no entries at all. -/
def fs0 : FS where
  isDir := fun _ => false
  isFile := fun _ => false
  readToString := fun _ => none

/-- The chain of directories the `while` loop visits, from the starting
directory up to and including the parentless root. -/
def ancestors (abs : Bool) : List (List Char) → List Path
  | [] => [⟨abs, []⟩]
  | c :: rest => ⟨abs, c :: rest⟩ :: ancestors abs rest

theorem stripPrefix_append (pre rest : List Char) :
    stripPrefix pre (pre ++ rest) = some rest := by
  induction pre with
  | nil => rfl
  | cons p ps ih => simpa [stripPrefix] using ih

theorem stripPrefix_eq_some {pre s r : List Char} :
    stripPrefix pre s = some r ↔ s = pre ++ r := by
  induction pre generalizing s with
  | nil => simp [stripPrefix]
  | cons p ps ih =>
    cases s with
    | nil => simp [stripPrefix]
    | cons c cs =>
      by_cases h : p = c
      · subst h
        simp [stripPrefix, ih]
      · simp only [stripPrefix, if_neg h, List.cons_append]
        constructor
        · intro hx
          exact absurd hx (by simp)
        · intro hx
          injection hx with h1 _
          exact absurd h1.symm h

theorem stripPrefix_eq_none {pre s : List Char} :
    stripPrefix pre s = none ↔ ¬ pre <+: s := by
  constructor
  · intro h hp
    obtain ⟨t, ht⟩ := hp
    rw [← ht, stripPrefix_append] at h
    cases h
  · intro h
    cases hs : stripPrefix pre s with
    | none => rfl
    | some r => exact absurd ⟨r, (stripPrefix_eq_some.mp hs).symm⟩ h

theorem charUtf8Size_of_hex {c : Char} (h : isAsciiHexdigit c = true) :
    charUtf8Size c = 1 := by
  unfold isAsciiHexdigit at h
  simp only [Bool.or_eq_true, Bool.and_eq_true, decide_eq_true_eq] at h
  have hle : c.toNat ≤ 0x7F := by omega
  unfold charUtf8Size
  rw [if_pos hle]

theorem utf8Len_of_all_hex {s : List Char} (h : s.all isAsciiHexdigit = true) :
    utf8Len s = s.length := by
  induction s with
  | nil => rfl
  | cons c cs ih =>
    simp only [List.all_cons, Bool.and_eq_true] at h
    simp only [utf8Len, List.map_cons, List.sum_cons, List.length_cons] at *
    rw [charUtf8Size_of_hex h.1, ih h.2]
    omega

/-- C2: if the whitespace-trimmed content starts with `ref: ` and the
remainder after that prefix starts with `refs/heads/`, `parse_git_head`
returns `some` of the text after `refs/heads/`. -/
theorem c2_ref_heads_branch (s rest : List Char)
    (h : rustTrim s = "ref: refs/heads/".data ++ rest) :
    parse_git_head s = some rest := by
  have h' : rustTrim s = "ref: ".data ++ ("refs/heads/".data ++ rest) := by
    rw [h]
    rfl
  simp only [parse_git_head, h', stripPrefix_append]

/-- C2 witness: `parse_git_head "ref: refs/heads/main\n" = some "main"`
(trailing newline ignored). -/
theorem c2_witness :
    parse_git_head "ref: refs/heads/main\n".data = some "main".data :=
  c2_ref_heads_branch "ref: refs/heads/main\n".data "main".data (by decide)

/-- C3: when the trimmed content does not start with `ref: `, the result is
`some` of the first seven characters followed by `...` when the trimmed
content has length at least 7 and is all ASCII hex digits, and `none`
otherwise. -/
theorem c3_detached_hash (s : List Char)
    (h : ¬ "ref: ".data <+: rustTrim s) :
    (7 ≤ (rustTrim s).length ∧ (rustTrim s).all isAsciiHexdigit = true →
      parse_git_head s = some ((rustTrim s).take 7 ++ "...".data)) ∧
    (¬(7 ≤ (rustTrim s).length ∧ (rustTrim s).all isAsciiHexdigit = true) →
      parse_git_head s = none) := by
  have hsp : stripPrefix "ref: ".data (rustTrim s) = none := stripPrefix_eq_none.mpr h
  simp only [parse_git_head, hsp]
  constructor
  · rintro ⟨h7, hhex⟩
    rw [if_pos ⟨by rw [utf8Len_of_all_hex hhex]; exact h7, hhex⟩]
  · intro hn
    rw [if_neg]
    rintro ⟨h7, hhex⟩
    exact hn ⟨by rw [← utf8Len_of_all_hex hhex]; exact h7, hhex⟩

/-- C3 witness: a valid detached hash is shortened, an unrecognized string
yields `none`. -/
theorem c3_witness :
    parse_git_head "abc1234567890abcdef".data = some "abc1234...".data ∧
    parse_git_head "not-a-valid-ref".data = none := by
  constructor
  · have h := (c3_detached_hash "abc1234567890abcdef".data (by decide)).1 (by decide)
    rw [h]
    decide
  · exact (c3_detached_hash "not-a-valid-ref".data (by decide)).2 (by decide)

/-- C4: when the trimmed content starts with `ref: ` but the reference path
does not start with `refs/heads/`, the result is the remainder after
`refs/remotes/` when that prefix matches, and the full reference path
otherwise. -/
theorem c4_other_refs (s ref_path : List Char)
    (h : rustTrim s = "ref: ".data ++ ref_path)
    (hh : ¬ "refs/heads/".data <+: ref_path) :
    (∀ rest, ref_path = "refs/remotes/".data ++ rest → parse_git_head s = some rest) ∧
    (¬ "refs/remotes/".data <+: ref_path → parse_git_head s = some ref_path) := by
  have hh' : stripPrefix "refs/heads/".data ref_path = none := stripPrefix_eq_none.mpr hh
  simp only [parse_git_head, h, stripPrefix_append, hh']
  constructor
  · intro rest hrest
    rw [hrest, stripPrefix_append]
  · intro hr
    rw [stripPrefix_eq_none.mpr hr]

/-- C4 witness: a remote ref is returned remote-qualified; a tag ref is
returned as the full reference path. -/
theorem c4_witness :
    parse_git_head "ref: refs/remotes/origin/main".data = some "origin/main".data ∧
    parse_git_head "ref: refs/tags/v1.0".data = some "refs/tags/v1.0".data := by
  constructor
  · exact (c4_other_refs "ref: refs/remotes/origin/main".data
      "refs/remotes/origin/main".data (by decide) (by decide)).1
      "origin/main".data (by decide)
  · exact (c4_other_refs "ref: refs/tags/v1.0".data
      "refs/tags/v1.0".data (by decide) (by decide)).2 (by decide)

/-- C10 counterexample: the claim asserts `parse_git_head "ref: "` returns
`Some ""`, but trimming removes the trailing space, so the trimmed content is
`"ref:"`, which does not start with `ref: `; the result is `none`. -/
theorem c10_counterexample : parse_git_head "ref: ".data = none := by decide

/-- C10 (amended): `parse_git_head` returns `none` iff the trimmed input
neither starts with `ref: ` nor is a string of length at least 7 of ASCII hex
digits; every *trimmed* input starting with `ref: ` yields `some`, including
`some ""` for the input `ref: refs/heads/`; but the input `ref: ` itself
trims to `ref:` and yields `none`. -/
theorem c10_none_iff :
    (∀ s, parse_git_head s = none ↔
      (¬ "ref: ".data <+: rustTrim s ∧
       ¬(7 ≤ (rustTrim s).length ∧ (rustTrim s).all isAsciiHexdigit = true))) ∧
    parse_git_head "ref: refs/heads/".data = some [] ∧
    parse_git_head "ref: ".data = none := by
  refine ⟨fun s => ?_, by decide, by decide⟩
  by_cases hp : "ref: ".data <+: rustTrim s
  · have hsome : ∃ r, parse_git_head s = some r := by
      obtain ⟨t, ht⟩ := hp
      simp only [parse_git_head, ← ht, stripPrefix_append]
      cases stripPrefix "refs/heads/".data t with
      | some branch => exact ⟨branch, rfl⟩
      | none =>
        cases stripPrefix "refs/remotes/".data t with
        | some remote => exact ⟨remote, rfl⟩
        | none => exact ⟨t, rfl⟩
    obtain ⟨r, hr⟩ := hsome
    exact iff_of_false (by simp [hr]) (fun hx => hx.1 hp)
  · have hsp : stripPrefix "ref: ".data (rustTrim s) = none := stripPrefix_eq_none.mpr hp
    simp only [parse_git_head, hsp]
    by_cases hc : 7 ≤ (rustTrim s).length ∧ (rustTrim s).all isAsciiHexdigit = true
    · rw [if_pos ⟨by rw [utf8Len_of_all_hex hc.2]; exact hc.1, hc.2⟩]
      exact iff_of_false (by simp) (fun hx => hx.2 hc)
    · rw [if_neg]
      · exact iff_of_true rfl ⟨hp, hc⟩
      · rintro ⟨h7, hhex⟩
        exact hc ⟨by rw [← utf8Len_of_all_hex hhex]; exact h7, hhex⟩

set_option maxRecDepth 8192 in
/-- C1 counterexample: in `fs1`, the search from `/a` finds the `.git`
directory at `/a/.git` whose `HEAD` is unreadable, yet the result is
`some "x"` (from the ancestor `/.git`), not `none`, and the ancestor's
`.git` entry is examined (its `is_dir` query is in the trace). -/
theorem c1_counterexample :
    get_git_branch fs1 "/a".data = some "x".data ∧
    FsOp.isDirQ ⟨true, [".git".data]⟩ ∈ (get_git_branchT fs1 "/a".data).2 := by
  decide

/-- C1 (amended): when the upward search encounters a `.git` entry that is a
directory whose `HEAD` cannot be read, the search *continues* with the parent
directory rather than returning `none` immediately: the result from that
directory equals the result of the search started at its parent. -/
theorem c1_unreadable_head_continues (fs : FS) (abs : Bool)
    (c : List Char) (rest : List (List Char))
    (hdir : fs.isDir (Path.join ⟨abs, c :: rest⟩ ".git".data) = true)
    (hread : fs.readToString
      (Path.join (Path.join ⟨abs, c :: rest⟩ ".git".data) "HEAD".data) = none) :
    (goT fs abs (c :: rest)).1 = (goT fs abs rest).1 := by
  have hchk : checkGitT fs ⟨abs, c :: rest⟩ =
      (none, [FsOp.isDirQ (Path.join ⟨abs, c :: rest⟩ ".git".data),
              FsOp.readQ (Path.join (Path.join ⟨abs, c :: rest⟩ ".git".data) "HEAD".data)]) := by
    simp only [checkGitT, hdir, if_true, hread]
  conv_lhs => rw [goT, hchk]

/-- C1 witness for the amended claim, at the concrete filesystem `fs1`. -/
theorem c1_witness :
    (goT fs1 true ["a".data]).1 = (goT fs1 true []).1 :=
  c1_unreadable_head_continues fs1 true "a".data [] (by decide) (by decide)

/-- C5: `get_git_branch` on the empty string returns `none` with an empty
operation trace (no filesystem access at all). -/
theorem c5_empty_path (fs : FS) :
    get_git_branch fs "".data = none ∧ (get_git_branchT fs "".data).2 = [] :=
  ⟨rfl, rfl⟩

/-- C6: when the search at a directory finds a `.git` entry that is a regular
file whose contents start with `gitdir: `, the file at
`<trimmed remainder>/HEAD` is read (its read is in the trace), and when that
read succeeds the result is `parse_git_head` of the contents read. -/
theorem c6_worktree_file (fs : FS) (abs : Bool) (comps : List (List Char))
    (contents git_path : List Char)
    (hnd : fs.isDir (Path.join ⟨abs, comps⟩ ".git".data) = false)
    (hf : fs.isFile (Path.join ⟨abs, comps⟩ ".git".data) = true)
    (hr : fs.readToString (Path.join ⟨abs, comps⟩ ".git".data) = some contents)
    (hp : stripPrefix "gitdir: ".data contents = some git_path) :
    FsOp.readQ ((strToPath (rustTrim git_path)).join "HEAD".data) ∈ (goT fs abs comps).2 ∧
    (∀ hc, fs.readToString ((strToPath (rustTrim git_path)).join "HEAD".data) = some hc →
      (goT fs abs comps).1 = parse_git_head hc) := by
  cases hread : fs.readToString ((strToPath (rustTrim git_path)).join "HEAD".data) with
  | some hc0 =>
    have hchk : checkGitT fs ⟨abs, comps⟩ =
        (some (parse_git_head hc0),
         [FsOp.isDirQ (Path.join ⟨abs, comps⟩ ".git".data),
          FsOp.isFileQ (Path.join ⟨abs, comps⟩ ".git".data),
          FsOp.readQ (Path.join ⟨abs, comps⟩ ".git".data),
          FsOp.readQ ((strToPath (rustTrim git_path)).join "HEAD".data)]) := by
      simp only [checkGitT, hnd, hf, hr, hp, hread, Bool.false_eq_true, if_false, if_true]
    have hgo : goT fs abs comps =
        (parse_git_head hc0,
         [FsOp.isDirQ (Path.join ⟨abs, comps⟩ ".git".data),
          FsOp.isFileQ (Path.join ⟨abs, comps⟩ ".git".data),
          FsOp.readQ (Path.join ⟨abs, comps⟩ ".git".data),
          FsOp.readQ ((strToPath (rustTrim git_path)).join "HEAD".data)]) := by
      rw [goT, hchk]
    refine ⟨by rw [hgo]; simp, fun hc hhc => ?_⟩
    injection hhc with hhc
    rw [hgo, hhc]
  | none =>
    have hchk : checkGitT fs ⟨abs, comps⟩ =
        (none,
         [FsOp.isDirQ (Path.join ⟨abs, comps⟩ ".git".data),
          FsOp.isFileQ (Path.join ⟨abs, comps⟩ ".git".data),
          FsOp.readQ (Path.join ⟨abs, comps⟩ ".git".data),
          FsOp.readQ ((strToPath (rustTrim git_path)).join "HEAD".data)]) := by
      simp only [checkGitT, hnd, hf, hr, hp, hread, Bool.false_eq_true, if_false, if_true]
    refine ⟨?_, fun hc hhc => ?_⟩
    · cases comps with
      | nil =>
        have hgo : goT fs abs [] =
            (none,
             [FsOp.isDirQ (Path.join ⟨abs, []⟩ ".git".data),
              FsOp.isFileQ (Path.join ⟨abs, []⟩ ".git".data),
              FsOp.readQ (Path.join ⟨abs, []⟩ ".git".data),
              FsOp.readQ ((strToPath (rustTrim git_path)).join "HEAD".data)]) := by
          rw [goT, hchk]
        rw [hgo]
        simp
      | cons c rest =>
        conv_lhs => rw [goT, hchk]
        simp
    · cases hhc

/-- C6 witness: on `fs2`, the search from `/w` follows the worktree marker to
`/g/HEAD` and returns branch `wt`. -/
theorem c6_witness : (goT fs2 true ["w".data]).1 = some "wt".data := by
  have h := (c6_worktree_file fs2 true ["w".data] "gitdir: /g\n".data "/g\n".data
    (by decide) (by decide) (by decide) (by decide)).2
    "ref: refs/heads/wt".data (by decide)
  rw [h]
  decide

theorem ancestors_getLast (abs : Bool) (comps : List (List Char)) :
    (ancestors abs comps).getLast? = some ⟨abs, []⟩ := by
  induction comps with
  | nil => rfl
  | cons c rest ih =>
    show (⟨abs, c :: rest⟩ :: ancestors abs rest).getLast? = some ⟨abs, []⟩
    cases hx : ancestors abs rest with
    | nil => cases rest <;> simp [ancestors] at hx
    | cons h' t' =>
      rw [List.getLast?_cons_cons, ← hx, ih]

theorem goT_eq_none_of_checks (fs : FS) (abs : Bool) (comps : List (List Char))
    (h : ∀ d ∈ ancestors abs comps, (checkGitT fs d).1 = none) :
    (goT fs abs comps).1 = none := by
  induction comps with
  | nil =>
    have h0 := h ⟨abs, []⟩ (by simp [ancestors])
    have ht : checkGitT fs ⟨abs, []⟩ = (none, (checkGitT fs ⟨abs, []⟩).2) := by
      rw [← h0]
    rw [goT]
    rw [ht]
  | cons c rest ih =>
    have h0 := h ⟨abs, c :: rest⟩ (by simp [ancestors])
    have ht : checkGitT fs ⟨abs, c :: rest⟩ =
        (none, (checkGitT fs ⟨abs, c :: rest⟩).2) := by
      rw [← h0]
    rw [goT]
    rw [ht]
    exact ih fun d hd => h d (List.mem_cons_of_mem _ (by simpa [ancestors] using hd))

/-- C7: for every filesystem and non-empty starting path, the upward walk
visits the finite ancestor chain whose last element is the parentless root,
and when no directory's `.git` check produces a result the function returns
`none`. -/
theorem c7_terminates (fs : FS) (s : List Char) (hne : s ≠ []) :
    (∃ root, (ancestors (strToPath s).absolute (strToPath s).components).getLast? =
        some root ∧ root.parent = none) ∧
    ((∀ d ∈ ancestors (strToPath s).absolute (strToPath s).components,
        (checkGitT fs d).1 = none) →
      get_git_branch fs s = none) := by
  refine ⟨⟨⟨(strToPath s).absolute, []⟩, ancestors_getLast _ _, rfl⟩, fun h => ?_⟩
  unfold get_git_branch get_git_branchT
  rw [if_neg (by simpa using hne)]
  exact goT_eq_none_of_checks fs _ _ h

/-- C7 witness: on the empty filesystem the walk from `/a` ends at the root
and returns `none`. -/
theorem c7_witness : get_git_branch fs0 "/a".data = none :=
  (c7_terminates fs0 "/a".data (by decide)).2 (by decide)

theorem checkGitT_trace_reads (fs : FS) (d : Path) :
    (checkGitT fs d).2.all FsOp.isRead = true := by
  simp only [checkGitT]
  repeat' split
  all_goals rfl

theorem goT_trace_reads (fs : FS) (abs : Bool) (comps : List (List Char)) :
    (goT fs abs comps).2.all FsOp.isRead = true := by
  induction comps with
  | nil =>
    have hall := checkGitT_trace_reads fs ⟨abs, []⟩
    rw [goT]
    cases hchk : checkGitT fs ⟨abs, []⟩ with
    | mk r t =>
      rw [hchk] at hall
      cases r <;> simpa using hall
  | cons c rest ih =>
    have hall := checkGitT_trace_reads fs ⟨abs, c :: rest⟩
    rw [goT]
    cases hchk : checkGitT fs ⟨abs, c :: rest⟩ with
    | mk r t =>
      rw [hchk] at hall
      cases r with
      | some r' => simpa using hall
      | none =>
        simp only [List.all_append, Bool.and_eq_true]
        exact ⟨hall, ih⟩

theorem applyOps_of_reads :
    ∀ (ops : List FsOp) (fs : FS), ops.all FsOp.isRead = true → applyOps fs ops = fs
  | [], _, _ => rfl
  | op :: rest, fs, h => by
    simp only [List.all_cons, Bool.and_eq_true] at h
    have hop : FsOp.apply fs op = fs := by
      cases op with
      | isDirQ p => rfl
      | isFileQ p => rfl
      | readQ p => rfl
      | writeQ p c => exact absurd h.1 (by simp [FsOp.isRead])
    show applyOps (FsOp.apply fs op) rest = fs
    rw [hop]
    exact applyOps_of_reads rest fs h.2

/-- C8: `get_git_branch` performs only reads: replaying its entire operation
trace against the filesystem leaves the filesystem unchanged. -/
theorem c8_readonly (fs : FS) (path : List Char) :
    applyOps fs (get_git_branchT fs path).2 = fs := by
  unfold get_git_branchT
  by_cases hp : path.isEmpty = true
  · rw [if_pos hp]
    rfl
  · rw [if_neg hp]
    exact applyOps_of_reads _ fs (goT_trace_reads fs _ _)

/-- C9: the 7-byte slice in the detached-hash branch is always in bounds and
on a character boundary: under the guard (at least 7 characters, all ASCII hex
digits), the first 7 characters occupy exactly 7 bytes, the trimmed content is
at least 7 bytes long, and `parse_git_head` returns the sliced hash without
any out-of-bounds access. -/
theorem c9_slice_safe (s : List Char)
    (h7 : 7 ≤ (rustTrim s).length)
    (hhex : (rustTrim s).all isAsciiHexdigit = true) :
    utf8Len ((rustTrim s).take 7) = 7 ∧ 7 ≤ utf8Len (rustTrim s) ∧
    parse_git_head s = some ((rustTrim s).take 7 ++ "...".data) := by
  have hnp : ¬ "ref: ".data <+: rustTrim s := by
    rintro ⟨t, ht⟩
    have hr : isAsciiHexdigit 'r' = true :=
      List.all_eq_true.mp hhex 'r'
        (by rw [← ht]; exact List.mem_append_left _ (by decide))
    exact absurd hr (by decide)
  have htake : ((rustTrim s).take 7).all isAsciiHexdigit = true :=
    List.all_eq_true.mpr fun c hc =>
      List.all_eq_true.mp hhex c (List.take_subset _ _ hc)
  have hlen7 : ((rustTrim s).take 7).length = 7 := by
    rw [List.length_take]
    omega
  refine ⟨by rw [utf8Len_of_all_hex htake, hlen7],
    by rw [utf8Len_of_all_hex hhex]; exact h7, ?_⟩
  have hsp : stripPrefix "ref: ".data (rustTrim s) = none := stripPrefix_eq_none.mpr hnp
  simp only [parse_git_head, hsp]
  rw [if_pos ⟨by rw [utf8Len_of_all_hex hhex]; exact h7, hhex⟩]

/-- C9 witness: the guard holds for a concrete detached hash and the slice
facts evaluate. -/
theorem c9_witness :
    utf8Len ((rustTrim "deadbeef12345".data).take 7) = 7 ∧
    7 ≤ utf8Len (rustTrim "deadbeef12345".data) ∧
    parse_git_head "deadbeef12345".data =
      some ((rustTrim "deadbeef12345".data).take 7 ++ "...".data) :=
  c9_slice_safe "deadbeef12345".data (by decide) (by decide)

end Git
